import Mathlib

/-!
# Verification of the acquire-zarr streaming-writer specification

A shallow embedding, in Lean 4, of the data model and operations of the
acquire-zarr streaming Zarr writer: the dimension model with its
`dimension_order` validation and transposition rules, the chunk accumulator,
the compression codec (shuffle stages and block-compressor framing), the
stream lifecycle (append / close / destroy) with its write-task queue, and
the metadata-file layout.

The repository's visible sources are its Python tests, examples and
benchmarks; the core pipeline itself is not present.  Definitions whose
doc comment starts with `Modelled from the spec:` embed that missing core,
following the specification's words and the behaviour asserted by the
repository's own tests.  Theorems then settle the specification's testable
properties against this embedding.
-/

namespace AcquireZarr

/-! ## Dimension model (spec §3, §4.1) -/

/-- The kind of an axis, as in the `DimensionType` enumeration used by the
tests (`TIME`, `CHANNEL`, `SPACE`, `OTHER`). -/
inductive DimensionType
  | time
  | channel
  | space
  | other
deriving DecidableEq, Repr

/-- One axis of an array: name, kind, full extent in pixels, chunk extent in
pixels, and number of chunks grouped per shard, as constructed by the tests
(`Dimension(name=..., kind=..., array_size_px=..., chunk_size_px=...,
shard_size_chunks=...)`). -/
structure Dimension where
  name : String
  kind : DimensionType
  array_size_px : Nat
  chunk_size_px : Nat
  shard_size_chunks : Nat
deriving DecidableEq, Repr

/-- Error text for a requested order that is not a permutation of the axis names. -/
def errOrderNotPermutation : String :=
  "dimension_order must be a permutation of the dimension names"

/-- Error text matched by `test_transpose_raises_error` for a moved outermost axis. -/
def errTransposeDimZero : String :=
  "Transposing dimension 0 is not currently supported"

/-- Error text matched by `test_transpose_raises_error` for a split plane pair. -/
def errSplitPlanePair : String :=
  "The last two dimensions in acquisition order must remain the last two"

/-- Modelled from the spec: §4.1 validation of a requested `dimension_order`.
The order must be a permutation of the axis names; the outermost
(acquisition/streaming) axis may not be moved away from position 0; and the
two innermost axes (the frame plane) may only be reordered together as a
trailing pair.  The two error messages are those matched by
`test_transpose_raises_error`. -/
def validateDimOrder (names : List String) (order : List String) : Except String Unit :=
  if ¬ (order.isPerm names) then
    Except.error errOrderNotPermutation
  else if order.take 1 ≠ names.take 1 then
    Except.error errTransposeDimZero
  else if ¬ ((order.drop (order.length - 2)).isPerm (names.drop (names.length - 2))) then
    Except.error errSplitPlanePair
  else
    Except.ok ()

/-- Per-array settings: the acquisition-order dimension list and the optional
storage-order permutation, mirroring the binding's `ArraySettings`. -/
structure ArraySettings where
  dimensions : List Dimension
  dimension_order : Option (List String)
deriving DecidableEq, Repr

/-- Modelled from the spec: constructing `ArraySettings` validates the
requested `dimension_order` synchronously and reports an illegal order as a
configuration error, before any store artifact is produced (§4.1, §7(1)).
Construction is a pure function into `Except`: on error no settings object
(and hence no store) comes into existence. -/
def mkArraySettings (dims : List Dimension) (order : Option (List String)) :
    Except String ArraySettings :=
  match order with
  | none => Except.ok ⟨dims, none⟩
  | some o =>
    match validateDimOrder (dims.map (fun d => d.name)) o with
    | Except.error e => Except.error e
    | Except.ok _ => Except.ok ⟨dims, some o⟩

/-! ## Helper lemmas for the dimension-order validation -/

/-- Two lists of length two that contain all elements of a duplicate-free
list of length two are permutations of one another. -/
theorem perm_of_length_two_subset {α : Type} [DecidableEq α] {a b : List α}
    (hnd : a.Nodup) (hla : a.length = 2) (hlb : b.length = 2)
    (hsub : ∀ x ∈ a, x ∈ b) : List.Perm b a := by
  match a, b with
  | [a1, a2], [b1, b2] =>
    have hne : a1 ≠ a2 := by
      simp [List.nodup_cons] at hnd
      exact hnd
    have h1 : a1 = b1 ∨ a1 = b2 := by
      have := hsub a1 (by simp)
      simpa using this
    have h2 : a2 = b1 ∨ a2 = b2 := by
      have := hsub a2 (by simp)
      simpa using this
    rcases h1 with h1 | h1
    · rcases h2 with h2 | h2
      · exact absurd (h1.trans h2.symm) hne
      · subst h1; subst h2; exact List.Perm.refl _
    · rcases h2 with h2 | h2
      · subst h1; subst h2; exact List.Perm.swap _ _ _
      · exact absurd (h1.trans h2.symm) hne

/-- For nonempty lists, the one-element prefixes differ exactly when the
heads differ. -/
theorem take_one_ne_iff {a b : List String} (ha : 1 ≤ a.length) (hb : 1 ≤ b.length) :
    a.take 1 ≠ b.take 1 ↔ a.getD 0 "x" ≠ b.getD 0 "x" := by
  rcases a with _ | ⟨a0, ta⟩
  · simp at ha
  · rcases b with _ | ⟨b0, tb⟩
    · simp at hb
    · simp [List.getD]

/-- The trailing pair of the order fails to be a permutation of the trailing
pair of the (duplicate-free) names exactly when some name from the trailing
pair is missing from the order's trailing positions. -/
theorem drop_pair_perm_iff {names order : List String}
    (hnd : names.Nodup) (hlen : 2 ≤ names.length) (hleq : order.length = names.length) :
    ¬ ((order.drop (order.length - 2)).isPerm (names.drop (names.length - 2)) = true) ↔
      ∃ nm ∈ names.drop (names.length - 2), ¬ nm ∈ order.drop (order.length - 2) := by
  rw [List.isPerm_iff]
  have hlnd : (names.drop (names.length - 2)).length = 2 := by
    rw [List.length_drop]; omega
  have hlod : (order.drop (order.length - 2)).length = 2 := by
    rw [List.length_drop]; omega
  have hndd : (names.drop (names.length - 2)).Nodup :=
    hnd.sublist (List.drop_sublist _ _)
  constructor
  · intro hnp
    by_contra hall
    push_neg at hall
    exact hnp (perm_of_length_two_subset hndd hlnd hlod hall)
  · rintro ⟨nm, hmem, hnot⟩ hp
    exact hnot (hp.mem_iff.mpr hmem)

/-- **C2**: for every dimension list (with distinct names, at least two axes)
and every requested `dimension_order` that is a permutation of the axis
names, constructing the array settings reports a configuration error exactly
when the order moves the outermost (axis 0) dimension away from position 0
or separates one of the two innermost plane axes from the trailing
positions.  The error is the synchronous `Except.error` result of the pure
construction function, so no store artifact is produced. -/
theorem illegal_dimension_order_rejected (dims : List Dimension) (order : List String)
    (hnd : (dims.map (fun d => d.name)).Nodup)
    (hlen : 2 ≤ (dims.map (fun d => d.name)).length)
    (hperm : order.isPerm (dims.map (fun d => d.name)) = true) :
    (∃ e, mkArraySettings dims (some order) = Except.error e) ↔
      (order.getD 0 "x" ≠ (dims.map (fun d => d.name)).getD 0 "x" ∨
       ∃ nm ∈ (dims.map (fun d => d.name)).drop ((dims.map (fun d => d.name)).length - 2),
         ¬ nm ∈ order.drop (order.length - 2)) := by
  have hleq : order.length = (dims.map (fun d => d.name)).length :=
    (List.isPerm_iff.mp hperm).length_eq
  have hmk : (∃ e, mkArraySettings dims (some order) = Except.error e) ↔
      (∃ e, validateDimOrder (dims.map (fun d => d.name)) order = Except.error e) := by
    cases h : validateDimOrder (dims.map (fun d => d.name)) order with
    | error e => simp [mkArraySettings, h]
    | ok u => simp [mkArraySettings, h]
  rw [hmk]
  have key : (∃ e, validateDimOrder (dims.map (fun d => d.name)) order = Except.error e) ↔
      (order.take 1 ≠ (dims.map (fun d => d.name)).take 1 ∨
       ¬ ((order.drop (order.length - 2)).isPerm
            ((dims.map (fun d => d.name)).drop ((dims.map (fun d => d.name)).length - 2))
          = true)) := by
    by_cases h2 : order.take 1 = (dims.map (fun d => d.name)).take 1
    · by_cases h3 : (order.drop (order.length - 2)).isPerm
          ((dims.map (fun d => d.name)).drop ((dims.map (fun d => d.name)).length - 2)) = true
      · have h3x : (order.drop (order.length - 2)).isPerm
            ((dims.map (fun d => d.name)).drop (dims.length - 2)) = true := by
          simpa using h3
        simp [validateDimOrder, hperm, h2, h3x]
      · have h3x : (order.drop (order.length - 2)).isPerm
            ((dims.map (fun d => d.name)).drop (dims.length - 2)) = false := by
          simpa using h3
        simp [validateDimOrder, hperm, h2, h3x]
    · simp [validateDimOrder, hperm, h2]
  rw [key, take_one_ne_iff (by omega) (by omega),
    drop_pair_perm_iff hnd hlen hleq]

/-! ## The dimensions used by `test_dimension_transposition` -/

/-- The `t` axis of the transposition tests: time, extent 2, chunk 1. -/
def dimT : Dimension := ⟨ "t", DimensionType.time, 2, 1, 1⟩

/-- The `c` axis of the transposition tests: channel, extent 3, chunk 1. -/
def dimC : Dimension := ⟨ "c", DimensionType.channel, 3, 1, 1⟩

/-- The `z` axis of the transposition tests: space, extent 4, chunk 1. -/
def dimZ : Dimension := ⟨ "z", DimensionType.space, 4, 1, 1⟩

/-- The `y` axis of the transposition tests: space, extent 16, chunk 8. -/
def dimY : Dimension := ⟨ "y", DimensionType.space, 16, 8, 1⟩

/-- The `x` axis of the transposition tests: space, extent 24, chunk 8. -/
def dimX : Dimension := ⟨ "x", DimensionType.space, 24, 8, 1⟩

/-- Witness for `illegal_dimension_order_rejected`: the literal failing
scenario of `test_transpose_raises_error`, input `[z, c, y, x]` with
requested order `[c, z, y, x]`, which moves axis 0. -/
theorem illegal_dimension_order_rejected_witness :
    (([dimZ, dimC, dimY, dimX].map (fun d => d.name)).Nodup ∧
     2 ≤ ([dimZ, dimC, dimY, dimX].map (fun d => d.name)).length ∧
     [ "c", "z", "y", "x"].isPerm ([dimZ, dimC, dimY, dimX].map (fun d => d.name)) = true) ∧
    ((∃ e, mkArraySettings [dimZ, dimC, dimY, dimX] (some [ "c", "z", "y", "x"]) =
        Except.error e) ↔
      ([ "c", "z", "y", "x"].getD 0 "x" ≠
        ([dimZ, dimC, dimY, dimX].map (fun d => d.name)).getD 0 "x" ∨
       ∃ nm ∈ ([dimZ, dimC, dimY, dimX].map (fun d => d.name)).drop
          (([dimZ, dimC, dimY, dimX].map (fun d => d.name)).length - 2),
         ¬ nm ∈ [ "c", "z", "y", "x"].drop ([ "c", "z", "y", "x"].length - 2))) :=
  ⟨⟨by decide, by decide, by decide⟩,
    illegal_dimension_order_rejected [dimZ, dimC, dimY, dimX] [ "c", "z", "y", "x"]
      (by decide) (by decide) (by decide)⟩

/-! ## Row-major index arithmetic and axis permutation (spec §4.1) -/

/-- Decode a flat row-major offset into a multi-index for the given shape
(outermost axis first, matching acquisition order). -/
def toMultiIndex : List Nat → Nat → List Nat
  | [], _ => []
  | _ :: rest, k => k / rest.prod :: toMultiIndex rest (k % rest.prod)

/-- Encode a multi-index into a flat row-major offset for the given shape. -/
def fromMultiIndex : List Nat → List Nat → Nat
  | _ :: srest, i :: irest => i * srest.prod + fromMultiIndex srest irest
  | _, _ => 0

/-- Apply an axis permutation to a multi-index (or to a shape): position `i`
of the result holds the component of `idx` at axis `perm[i]`. -/
def applyPerm (perm : List Nat) (idx : List Nat) : List Nat :=
  perm.map (fun p => idx.getD p 0)

/-- Invert an axis permutation: position `a` of the result is the position
at which axis `a` appears in `perm`. -/
def invPermOf (perm : List Nat) : List Nat :=
  (List.range perm.length).map (fun a => perm.indexOf a)

/-- The permutation (as axis indices into `names`) described by a
`dimension_order` list of axis names. -/
def permOf (names order : List String) : List Nat :=
  order.map (fun nm => names.indexOf nm)

/-- Array transposition as the spec words it: the element of the transposed
array at (flat row-major) position `m` of the permuted shape is the source
element whose acquisition-order multi-index is obtained by inverting the
permutation on the output multi-index of `m`.  `src` gives the source
element at each acquisition-order flat offset. -/
def transposedValue (shape perm : List Nat) (src : Nat → Nat) (m : Nat) : Nat :=
  src (fromMultiIndex shape (applyPerm (invPermOf perm) (toMultiIndex (applyPerm perm shape) m)))

/-- Modelled from the spec: §4.1 "Produces, given acquisition shape and
desired output order, the permutation used to reinterpret every appended
frame's element ordering before it enters the accumulator", and §4.8
"applying dimension transposition first".  Element `k` (acquisition-order
flat offset) of the appended data, with value `vals[k]`, is stored at the
output-order row-major offset of its permuted multi-index, in a store laid
out with the permuted shape. -/
def writeFrames (inputShape perm : List Nat) (vals : List Nat) : List Nat :=
  (List.range vals.length).foldl
    (fun store k =>
      store.set
        (fromMultiIndex (applyPerm perm inputShape)
          (applyPerm perm (toMultiIndex inputShape k)))
        (vals.getD k 0))
    (List.replicate (applyPerm perm inputShape).prod 0)

/-- The axis names of `test_dimension_transposition`, in acquisition order. -/
def c1Names : List String := [ "t", "c", "z", "y", "x"]

/-- The extent of each named test axis. -/
def extentOf (nm : String) : Nat :=
  if nm = "t" then 2
  else if nm = "c" then 3
  else if nm = "z" then 4
  else if nm = "y" then 16
  else 24

/-- Decidable equality for `Except` results, used to evaluate the validator
inside decidable statements. -/
instance {e a : Type} [DecidableEq e] [DecidableEq a] : DecidableEq (Except e a) := fun x y =>
  match x, y with
  | Except.error u, Except.error v =>
    if h : u = v then isTrue (by rw [h]) else isFalse (by simp [h])
  | Except.ok u, Except.ok v =>
    if h : u = v then isTrue (by rw [h]) else isFalse (by simp [h])
  | Except.error _, Except.ok _ => isFalse (by simp)
  | Except.ok _, Except.error _ => isFalse (by simp)

/-- All ways to insert an element into a list. -/
def insertEverywhere (a : String) : List String → List (List String)
  | [] => [[a]]
  | b :: l => (a :: b :: l) :: (insertEverywhere a l).map (fun l2 => b :: l2)

/-- All permutations of a list of axis names (structural enumeration). -/
def allOrders : List String → List (List String)
  | [] => [[]]
  | a :: l => (allOrders l).flatMap (insertEverywhere a)

set_option maxRecDepth 16000 in
/-- **C1**: for the test dimensions t(2)/c(3)/z(4)/y(16)/x(24) in acquisition
order `[t, c, z, y, x]`, every declared `dimension_order` permutation that
the validator accepts yields a stored array whose shape equals the
output-order extents, and — when frames with sequential constant values
0..23 are appended — whose frame values equal the acquisition-order logical
array transposed by that same permutation of the three non-plane axes. -/
theorem dimension_transposition_correct :
    ∀ order ∈ allOrders c1Names,
      validateDimOrder c1Names order = Except.ok () →
      applyPerm (permOf c1Names order) [2, 3, 4, 16, 24] = order.map extentOf ∧
      writeFrames [2, 3, 4] ((permOf c1Names order).take 3) (List.range 24) =
        (List.range 24).map
          (transposedValue [2, 3, 4] ((permOf c1Names order).take 3) (fun k => k)) := by
  decide

set_option maxRecDepth 16000 in
/-- Witness for `dimension_transposition_correct`: the spec's literal
scenario, output order `[t, z, c, y, x]`. -/
theorem dimension_transposition_correct_witness :
    ([ "t", "z", "c", "y", "x"] ∈ allOrders c1Names ∧
     validateDimOrder c1Names [ "t", "z", "c", "y", "x"] = Except.ok ()) ∧
    (applyPerm (permOf c1Names [ "t", "z", "c", "y", "x"]) [2, 3, 4, 16, 24] =
        [ "t", "z", "c", "y", "x"].map extentOf ∧
     writeFrames [2, 3, 4] ((permOf c1Names [ "t", "z", "c", "y", "x"]).take 3)
         (List.range 24) =
       (List.range 24).map
         (transposedValue [2, 3, 4]
           ((permOf c1Names [ "t", "z", "c", "y", "x"]).take 3) (fun k => k))) :=
  ⟨⟨by decide, by decide⟩,
    dimension_transposition_correct [ "t", "z", "c", "y", "x"] (by decide) (by decide)⟩

/-- The appended plane of `test_swap_xy` as a function of the
acquisition-order flat element offset: the frame is 16 rows by 24 columns
and every element of row `i` has value `i`. -/
def c8Frame (k : Nat) : Nat := k / 24

set_option maxRecDepth 16000 in
/-- **C8**: for a stream with dimensions `[t, y, x]` (y = 16, x = 24) and
`dimension_order [t, x, y]`, construction succeeds, and appending one
y-by-x frame then closing yields a stored array of shape (1, 24, 16) whose
plane is the transpose of the appended plane (stored element at output
offset `m`, that is at index (0, j, i), has value `i = m % 16`). -/
theorem swap_xy_transposes_plane :
    validateDimOrder [ "t", "y", "x"] [ "t", "x", "y"] = Except.ok () ∧
    applyPerm (permOf [ "t", "y", "x"] [ "t", "x", "y"]) [1, 16, 24] = [1, 24, 16] ∧
    writeFrames [1, 16, 24] (permOf [ "t", "y", "x"] [ "t", "x", "y"])
        ((List.range 384).map c8Frame) =
      (List.range 384).map
        (transposedValue [1, 16, 24] (permOf [ "t", "y", "x"] [ "t", "x", "y"]) c8Frame) ∧
    (List.range 384).map
        (transposedValue [1, 16, 24] (permOf [ "t", "y", "x"] [ "t", "x", "y"]) c8Frame) =
      (List.range 384).map (fun m => m % 16) := by
  decide

/-! ## Chunk accumulator (spec §4.2, §8) -/

/-- Modelled from the spec: the number of chunks along a bounded axis of
extent `a` with chunk extent `c`, computed as in the usual integer form
`(a + c - 1) / c` (proved below to equal the spec's ceil(a / c)). -/
def chunkCount (a c : Nat) : Nat := (a + c - 1) / c

/-- The chunk accumulator's state along the unbounded (outermost) axis:
how many frames sit in the currently open chunk, and the outermost extents
of the chunks flushed so far, in order. -/
structure AccState where
  pending : Nat
  flushed : List Nat
deriving DecidableEq, Repr

/-- The accumulator before any append: empty open chunk, nothing flushed. -/
def accInit : AccState := ⟨0, []⟩

/-- Modelled from the spec: §4.2 `append(frame)` inserts one unit of data at
the next position along the outermost axis; when the chunk becomes exactly
full it is handed off as an immutable unit and a fresh buffer is started. -/
def appendFrame (c : Nat) (s : AccState) : AccState :=
  if s.pending + 1 = c then ⟨0, s.flushed ++ [c]⟩ else ⟨s.pending + 1, s.flushed⟩

/-- The accumulator after appending `n` frames with chunk extent `c`. -/
def appendN (c : Nat) : Nat → AccState
  | 0 => accInit
  | n + 1 => appendFrame c (appendN c n)

/-- Modelled from the spec: §4.2 at `close()`/`flush()` any partially filled
tail chunk is flushed as a final, irregular-length chunk.  Returns the
outermost extents of all chunks in the final store. -/
def closeAcc (s : AccState) : List Nat :=
  if s.pending = 0 then s.flushed else s.flushed ++ [s.pending]

/-- Closed form for the accumulator state: after `n` appends with chunk
extent `c`, the open chunk holds `n % c` frames and `n / c` full chunks have
been flushed. -/
theorem appendN_eq (c n : Nat) (hc : 0 < c) :
    appendN c n = ⟨n % c, List.replicate (n / c) c⟩ := by
  induction n with
  | zero => simp [appendN, accInit]
  | succ n ih =>
    have h1 := Nat.div_add_mod n c
    rw [appendN, ih, appendFrame]
    by_cases h : n % c + 1 = c
    · have h2 : n + 1 = c * (n / c + 1) := by
        calc n + 1 = c * (n / c) + (n % c + 1) := by omega
        _ = c * (n / c) + c := by rw [h]
        _ = c * (n / c + 1) := by ring
      have hmod : (n + 1) % c = 0 := by rw [h2]; exact Nat.mul_mod_right _ _
      have hdiv : (n + 1) / c = n / c + 1 := by rw [h2]; exact Nat.mul_div_cancel_left _ hc
      simp [h, hmod, hdiv, List.replicate_succ']
    · have hlt : n % c + 1 < c := by
        have := Nat.mod_lt n hc
        omega
      have h2 : n + 1 = n % c + 1 + c * (n / c) := by omega
      have hmod : (n + 1) % c = n % c + 1 := by
        rw [h2, Nat.add_mul_mod_self_left]
        exact Nat.mod_eq_of_lt hlt
      have hdiv : (n + 1) / c = n / c := by
        rw [h2, Nat.add_mul_div_left _ _ hc, Nat.div_eq_of_lt hlt, Nat.zero_add]
      simp only [if_neg h, hmod, hdiv]

/-- `chunkCount a c` is the least `m` with `a ≤ c * m`. -/
theorem chunkCount_le_iff (a c m : Nat) (hc : 0 < c) :
    chunkCount a c ≤ m ↔ a ≤ c * m := by
  unfold chunkCount
  rw [Nat.div_le_iff_le_mul_add_pred hc]
  generalize c * m = X
  omega

/-- The chunk count along a bounded axis equals the ceiling of
`array_size / chunk_size` as the spec words it. -/
theorem chunkCount_eq_ceil (a c : Nat) (hc : 0 < c) :
    (chunkCount a c : ℤ) = Int.ceil ((a : ℚ) / (c : ℚ)) := by
  have hcq : (0 : ℚ) < (c : ℚ) := by exact_mod_cast hc
  apply le_antisymm
  · have hnonneg : (0 : ℚ) ≤ (a : ℚ) / (c : ℚ) := by positivity
    have hceil0 : (0 : ℤ) ≤ Int.ceil ((a : ℚ) / (c : ℚ)) := Int.ceil_nonneg hnonneg
    have htz : ((Int.ceil ((a : ℚ) / (c : ℚ))).toNat : ℤ) = Int.ceil ((a : ℚ) / (c : ℚ)) :=
      Int.toNat_of_nonneg hceil0
    have hle : (a : ℚ) / (c : ℚ) ≤ ((Int.ceil ((a : ℚ) / (c : ℚ))).toNat : ℚ) := by
      have hx := Int.le_ceil ((a : ℚ) / (c : ℚ))
      calc (a : ℚ) / (c : ℚ) ≤ (Int.ceil ((a : ℚ) / (c : ℚ)) : ℚ) := hx
      _ = _ := by exact_mod_cast congrArg (fun z : ℤ => (z : ℚ)) htz.symm
    have ha2 : a ≤ c * (Int.ceil ((a : ℚ) / (c : ℚ))).toNat := by
      rw [div_le_iff₀ hcq] at hle
      have hq : (a : ℚ) ≤ ((c * (Int.ceil ((a : ℚ) / (c : ℚ))).toNat : ℕ) : ℚ) := by
        push_cast
        linarith [hle]
      exact_mod_cast hq
    have hfin := (chunkCount_le_iff a c _ hc).mpr ha2
    calc (chunkCount a c : ℤ) ≤ ((Int.ceil ((a : ℚ) / (c : ℚ))).toNat : ℤ) := by
          exact_mod_cast hfin
    _ = _ := htz
  · rw [Int.ceil_le, div_le_iff₀ hcq]
    have h1 : a ≤ c * chunkCount a c := (chunkCount_le_iff a c _ hc).mp le_rfl
    have h2 : (a : ℚ) ≤ ((c * chunkCount a c : ℕ) : ℚ) := by exact_mod_cast h1
    push_cast at h2 ⊢
    linarith [h2]

/-- **C4**: the chunk count along any bounded axis equals
ceil(array_size / chunk_size); after appending `n` frames along the
unbounded axis, every chunk flushed before close is exactly full (the
partial tail is never written early), and closing flushes the tail so that
the final chunk has outermost extent `n % c` (or the full `c` when `n` is
evenly divisible), the store holding `n / c` full chunks plus that tail. -/
theorem chunk_layout_correct (a c n : Nat) (hc : 0 < c) (hn : 0 < n) :
    ((chunkCount a c : ℤ) = Int.ceil ((a : ℚ) / (c : ℚ))) ∧
    (∀ e ∈ (appendN c n).flushed, e = c) ∧
    ((closeAcc (appendN c n)).getLast? = some (if n % c = 0 then c else n % c)) ∧
    closeAcc (appendN c n) =
      List.replicate (n / c) c ++ (if n % c = 0 then [] else [n % c]) := by
  refine ⟨chunkCount_eq_ceil a c hc, ?_, ?_, ?_⟩
  · rw [appendN_eq c n hc]
    intro e he
    exact List.eq_of_mem_replicate he
  · rw [appendN_eq c n hc]
    unfold closeAcc
    by_cases h : n % c = 0
    · have hge : c ≤ n := by
        rcases Nat.lt_or_ge n c with hlt | hge
        · rw [Nat.mod_eq_of_lt hlt] at h; omega
        · exact hge
      have hq : 1 ≤ n / c := (Nat.one_le_div_iff hc).mpr hge
      obtain ⟨m, hm⟩ : ∃ m, n / c = m + 1 := ⟨n / c - 1, by omega⟩
      simp [h, hm, List.replicate_succ', List.getLast?_concat]
    · simp [h, List.getLast?_concat]
  · rw [appendN_eq c n hc]
    unfold closeAcc
    by_cases h : n % c = 0
    · simp [h]
    · simp [h]

/-- Witness for `chunk_layout_correct`: the `test_stream_data_to_filesystem`
geometry for the bounded `y` axis (48 pixels, chunk 16) with 33 frames
appended along the unbounded axis (chunk 16 → two full chunks and a tail of
one frame). -/
theorem chunk_layout_correct_witness :
    ((0 : Nat) < 16 ∧ (0 : Nat) < 33) ∧
    (((chunkCount 48 16 : ℤ) = Int.ceil ((48 : ℚ) / (16 : ℚ))) ∧
     (∀ e ∈ (appendN 16 33).flushed, e = 16) ∧
     ((closeAcc (appendN 16 33)).getLast? = some (if 33 % 16 = 0 then 16 else 33 % 16)) ∧
     closeAcc (appendN 16 33) =
       List.replicate (33 / 16) 16 ++ (if 33 % 16 = 0 then [] else [33 % 16])) :=
  ⟨⟨by decide, by decide⟩, chunk_layout_correct 48 16 33 (by decide) (by decide)⟩

/-! ## Stream lifecycle: append queue, close, destroy (spec §4.8, §5) -/

/-- A background write task: an id (enqueue order) and the bytes to write. -/
structure WriterTask where
  id : Nat
  payload : List Nat
deriving DecidableEq, Repr

/-- Observable events of the stream pipeline, in the order they happen:
completion of an enqueued write task, and the final metadata write. -/
inductive StreamEvent
  | taskDone (id : Nat)
  | metadataFinalized
deriving DecidableEq, Repr

/-- The orchestrator's state: what the caller appended, the enqueued but not
yet durable write tasks, the durably written tasks, the event trace, the
current final metadata document, the closed flag, and the next task id. -/
structure StreamState where
  appended : List (List Nat)
  queue : List WriterTask
  written : List WriterTask
  trace : List StreamEvent
  metaDoc : Option String
  closed : Bool
  nextId : Nat
deriving DecidableEq, Repr

/-- A freshly created stream: nothing appended, queued, written or closed. -/
def streamInit : StreamState := ⟨[], [], [], [], none, false, 0⟩

/-- Modelled from the spec: §4.8/§5 `append` is synchronous with respect to
buffering — it enqueues the completed write work and returns — but
asynchronous with respect to durability: nothing moves to `written` here. -/
def appendStream (frame : List Nat) (s : StreamState) : StreamState :=
  ⟨s.appended ++ [frame], s.queue ++ [⟨s.nextId, frame⟩], s.written, s.trace,
    s.metaDoc, s.closed, s.nextId + 1⟩

/-- The bytes of the final array-level metadata document, a function of the
final frame count along the unbounded axis (§4.7). -/
def renderMetadata (frameCount : Nat) : String :=
  "zarr array metadata with outer shape " ++ toString frameCount

/-- Modelled from the spec: §5 draining completes every enqueued compression
and write task (success being recorded in the trace) before anything else
may happen. -/
def drainStream (s : StreamState) : StreamState :=
  ⟨s.appended, [], s.written ++ s.queue,
    s.trace ++ s.queue.map (fun t => StreamEvent.taskDone t.id),
    s.metaDoc, s.closed, s.nextId⟩

/-- Modelled from the spec: §4.7 at close/finalize the array-level metadata
is rewritten once the final shape (the actual frame count along the
unbounded axis) is known. -/
def finalizeMetadata (d : StreamState) : StreamState :=
  ⟨d.appended, d.queue, d.written, d.trace ++ [StreamEvent.metadataFinalized],
    some (renderMetadata d.appended.length), true, d.nextId⟩

/-- Modelled from the spec: §5 `close()` is the single synchronization
barrier — it drains every enqueued task and only then finalizes the
metadata. -/
def closeStream (s : StreamState) : StreamState :=
  finalizeMetadata (drainStream s)

/-- Append each frame of a list, in order, starting from a given state. -/
def appendFrom (s : StreamState) : List (List Nat) → StreamState
  | [] => s
  | f :: rest => appendFrom (appendStream f s) rest

/-- A stream that has appended the given frames since creation. -/
def appendAll (frames : List (List Nat)) : StreamState :=
  appendFrom streamInit frames

/-- Modelled from the spec: destroying the stream object without an explicit
close (the tests' `del stream`) runs the full close sequence when the stream
is not yet closed. -/
def destroyStream (s : StreamState) : StreamState :=
  if s.closed then s else closeStream s

/-- What is on disk: the durably written payloads and the metadata document. -/
def storeContents (s : StreamState) : List (List Nat) × Option String :=
  (s.written.map (fun t => t.payload), s.metaDoc)

/-- Appending only grows `appended` and the queue: nothing is written, the
trace, metadata, closed flag are untouched, and the queued payloads are
exactly the appended frames. -/
theorem appendFrom_fields (frames : List (List Nat)) (s : StreamState) :
    (appendFrom s frames).written = s.written ∧
    (appendFrom s frames).trace = s.trace ∧
    (appendFrom s frames).metaDoc = s.metaDoc ∧
    (appendFrom s frames).closed = s.closed ∧
    (appendFrom s frames).appended = s.appended ++ frames ∧
    (appendFrom s frames).queue.map (fun t => t.payload) =
      s.queue.map (fun t => t.payload) ++ frames := by
  induction frames generalizing s with
  | nil => simp [appendFrom]
  | cons f rest ih =>
    obtain ⟨h1, h2, h3, h4, h5, h6⟩ := ih (appendStream f s)
    refine ⟨?_, ?_, ?_, ?_, ?_, ?_⟩
    · show (appendFrom (appendStream f s) rest).written = s.written
      rw [h1]
      rfl
    · show (appendFrom (appendStream f s) rest).trace = s.trace
      rw [h2]
      rfl
    · show (appendFrom (appendStream f s) rest).metaDoc = s.metaDoc
      rw [h3]
      rfl
    · show (appendFrom (appendStream f s) rest).closed = s.closed
      rw [h4]
      rfl
    · show (appendFrom (appendStream f s) rest).appended = s.appended ++ f :: rest
      rw [h5]
      show (s.appended ++ [f]) ++ rest = s.appended ++ f :: rest
      simp
    · show (appendFrom (appendStream f s) rest).queue.map (fun t => t.payload) =
        s.queue.map (fun t => t.payload) ++ f :: rest
      rw [h6]
      show (s.queue ++ [(⟨s.nextId, f⟩ : WriterTask)]).map (fun t => t.payload) ++ rest =
        s.queue.map (fun t => t.payload) ++ f :: rest
      simp

/-- **C5**: after `close`, no task remains enqueued, every payload appended
by prior `append` calls is durably written (so reading the store back yields
every appended frame), the final metadata records the actual frame count,
and in the event trace the metadata finalization comes after the completion
of every write task. -/
theorem close_drains_all_before_metadata (frames : List (List Nat)) :
    (closeStream (appendAll frames)).queue = [] ∧
    (closeStream (appendAll frames)).written.map (fun t => t.payload) = frames ∧
    (closeStream (appendAll frames)).metaDoc = some (renderMetadata frames.length) ∧
    (closeStream (appendAll frames)).trace =
      (closeStream (appendAll frames)).written.map (fun t => StreamEvent.taskDone t.id) ++
        [StreamEvent.metadataFinalized] := by
  obtain ⟨h1, h2, h3, h4, h5, h6⟩ := appendFrom_fields frames streamInit
  unfold appendAll
  set t := appendFrom streamInit frames with ht
  simp only [closeStream, finalizeMetadata, drainStream]
  refine ⟨trivial, ?_, ?_, ?_⟩
  · rw [List.map_append, h1, h6]
    simp [streamInit]
  · rw [h5]
    simp [streamInit]
  · rw [List.map_append, h1, h2]
    simp [streamInit]

/-- **C6**: finalizing twice with no intervening appends produces
byte-identical metadata documents, and an identical set of written chunks. -/
theorem close_idempotent_metadata (s : StreamState) :
    (closeStream (closeStream s)).metaDoc = (closeStream s).metaDoc ∧
    (closeStream (closeStream s)).written = (closeStream s).written := by
  simp [closeStream, finalizeMetadata, drainStream]

/-- **C10**: destroying the stream without an explicit close produces
exactly the on-disk store (written chunk payloads and metadata document)
that an explicit `close()` produces. -/
theorem destroy_equals_close (frames : List (List Nat)) :
    storeContents (destroyStream (appendAll frames)) =
      storeContents (closeStream (appendAll frames)) := by
  obtain ⟨h1, h2, h3, h4, h5, h6⟩ := appendFrom_fields frames streamInit
  unfold appendAll
  have hcl : (appendFrom streamInit frames).closed = false := by
    rw [h4]
    rfl
  unfold destroyStream
  rw [hcl]
  simp

/-! ## Metadata files present in the store (spec §4.7, §6; test_create_stream) -/

/-- The target on-disk Zarr format version. -/
inductive ZarrVersion
  | v2
  | v3
deriving DecidableEq, Repr

/-- Modelled from the spec and tests: the group-level documents present in
the store as soon as the stream is created (`test_create_stream` /
`validate_v2_metadata` / `validate_v3_metadata`). -/
def filesAtCreation : ZarrVersion → List String
  | ZarrVersion.v2 => [ ".zgroup", ".zattrs", "acquire.json"]
  | ZarrVersion.v3 => [ "zarr.json", "meta/root.group.json", "meta/acquire.json"]

/-- The array-level metadata document for each version (`.zarray` under the
array key for v2, the array metadata document for v3). -/
def arrayMetadataFile : ZarrVersion → String
  | ZarrVersion.v2 => "0/.zarray"
  | ZarrVersion.v3 => "meta/0.array.json"

/-- Modelled from the spec and tests: the documents present after the stream
is closed having appended `framesAppended` frames.  `test_create_stream`
asserts that with no data written there is no array-level metadata
(`assert not (store_path / "0" / ".zarray").exists()`), so the array-level
document appears only once data has been appended. -/
def filesAfterClose (v : ZarrVersion) (framesAppended : Nat) : List String :=
  filesAtCreation v ++ (if 0 < framesAppended then [arrayMetadataFile v] else [])

/-- Counterexample to **C7** as stated: when the stream is closed before any
data is appended, the array-level metadata document does not exist in the
store, for either format version. -/
theorem array_metadata_absent_without_data :
    ¬ arrayMetadataFile ZarrVersion.v2 ∈ filesAfterClose ZarrVersion.v2 0 ∧
    ¬ arrayMetadataFile ZarrVersion.v3 ∈ filesAfterClose ZarrVersion.v3 0 := by
  decide

/-- **C7** (amended): at creation the Metadata Writer emits the group-level
documents appropriate to the target version, and these persist through
close; the array-level document (v2 `.zarray`, v3 array metadata) exists in
the closed store exactly when at least one frame was appended. -/
theorem metadata_files_layout (v : ZarrVersion) (n : Nat) :
    (∀ f ∈ filesAtCreation v, f ∈ filesAfterClose v n) ∧
    (arrayMetadataFile v ∈ filesAfterClose v n ↔ 0 < n) := by
  constructor
  · intro f hf
    unfold filesAfterClose
    exact List.mem_append.mpr (Or.inl hf)
  · unfold filesAfterClose
    rcases Nat.eq_zero_or_pos n with h | h
    · subst h
      cases v <;> decide
    · simp only [if_pos h]
      constructor
      · intro _
        exact h
      · intro _
        exact List.mem_append.mpr (Or.inr (by simp))

/-! ## Stream settings and their defaults (spec §6, §9; test_settings.py) -/

/-- S3 connection parameters, as in the binding's `S3Settings`. -/
structure S3Settings where
  endpoint : String
  bucket_name : String
  access_key_id : String
  secret_access_key : String
deriving DecidableEq, Repr

/-- The compressor family (the binding exposes `Compressor.BLOSC1`). -/
inductive Compressor
  | blosc1
deriving DecidableEq, Repr

/-- The blosc codec selector of the binding (`BLOSC_LZ4`, `BLOSC_ZSTD`). -/
inductive CompressionCodecName
  | bloscLZ4
  | bloscZstd
deriving DecidableEq, Repr

/-- Compression configuration, as in the binding's `CompressionSettings`. -/
structure CompressionSettings where
  compressor : Compressor
  codec : CompressionCodecName
  level : Nat
  shuffle : Nat
deriving DecidableEq, Repr

/-- The caller-facing settings object of the binding (`StreamSettings`). -/
structure StreamSettings where
  store_path : String
  custom_metadata : Option String
  s3 : Option S3Settings
  compression : Option CompressionSettings
  dimensions : List Dimension
  multiscale : Bool
  version : ZarrVersion
deriving DecidableEq, Repr

/-- Modelled from the spec: the binding-layer `StreamSettings()` default
constructor, with the defaults asserted field by field in
`test_settings.py`. -/
def defaultStreamSettings : StreamSettings :=
  ⟨ "", none, none, none, [], false, ZarrVersion.v2⟩

/-- **C9**: a newly constructed `StreamSettings` has an empty store path, no
custom metadata, no S3 settings, no compression, an empty dimension list,
multiscale disabled, and Zarr version 2. -/
theorem default_stream_settings_correct :
    defaultStreamSettings.store_path = "" ∧
    defaultStreamSettings.custom_metadata = none ∧
    defaultStreamSettings.s3 = none ∧
    defaultStreamSettings.compression = none ∧
    defaultStreamSettings.dimensions = [] ∧
    defaultStreamSettings.multiscale = false ∧
    defaultStreamSettings.version = ZarrVersion.v2 := by
  decide

/-! ## Compression codec: shuffle stages and block-compressor framing (spec §4.3) -/

/-- Modelled from the spec: the blosc byte-shuffle stage.  A buffer of
`n = length / es` elements of `es` bytes each is reordered so that byte `j`
of element `i` moves to position `j * n + i`. -/
def shuffleBytes (es : Nat) (xs : List Nat) : List Nat :=
  (List.range (es * (xs.length / es))).map
    (fun k => xs.getD ((k % (xs.length / es)) * es + k / (xs.length / es)) 0)

/-- Modelled from the spec: the inverse byte-shuffle applied on decompression. -/
def unshuffleBytes (es : Nat) (xs : List Nat) : List Nat :=
  (List.range (es * (xs.length / es))).map
    (fun m => xs.getD ((m % es) * (xs.length / es) + m / es) 0)

/-- Byte shuffling preserves the buffer length (for whole elements). -/
theorem shuffleBytes_length (es : Nat) (xs : List Nat) :
    (shuffleBytes es xs).length = es * (xs.length / es) := by
  simp [shuffleBytes]

/-- Unshuffling preserves the buffer length (for whole elements). -/
theorem unshuffleBytes_length (es : Nat) (xs : List Nat) :
    (unshuffleBytes es xs).length = es * (xs.length / es) := by
  simp [unshuffleBytes]

/-- The byte shuffle is inverted exactly by the unshuffle on buffers that
hold a whole number of elements. -/
theorem unshuffle_shuffle (es : Nat) (xs : List Nat) (hes : 0 < es) (hdvd : es ∣ xs.length) :
    unshuffleBytes es (shuffleBytes es xs) = xs := by
  have hlen : es * (xs.length / es) = xs.length := Nat.mul_div_cancel' hdvd
  rcases Nat.eq_zero_or_pos (xs.length / es) with hn0 | hnpos
  · have hx0 : xs.length = 0 := by
      rw [hn0, Nat.mul_zero] at hlen
      omega
    have hxs : xs = [] := List.length_eq_zero.mp hx0
    subst hxs
    simp [shuffleBytes, unshuffleBytes]
  · have hslen : (shuffleBytes es xs).length = xs.length := by
      rw [shuffleBytes_length, hlen]
    have hsq : (shuffleBytes es xs).length / es = xs.length / es := by rw [hslen]
    apply List.ext_getElem
    · rw [unshuffleBytes_length, hslen, hlen]
    · intro i hi1 hi2
      have hiu : i < xs.length := hi2
      have hie : i < es * (xs.length / es) := by omega
      have himod : i % es < es := Nat.mod_lt _ hes
      have hidiv : i / es < xs.length / es := by
        have hq : i < (xs.length / es) * es := by
          rw [Nat.mul_comm, hlen]
          exact hiu
        exact (Nat.div_lt_iff_lt_mul hes).mpr hq
      have hjlt : (i % es) * (xs.length / es) + i / es < es * (xs.length / es) := by
        calc (i % es) * (xs.length / es) + i / es
            < (i % es) * (xs.length / es) + xs.length / es := by omega
        _ = (i % es + 1) * (xs.length / es) := by ring
        _ ≤ es * (xs.length / es) := Nat.mul_le_mul_right _ (by omega)
      have hjmod : ((i % es) * (xs.length / es) + i / es) % (xs.length / es) = i / es := by
        rw [Nat.add_comm, Nat.add_mul_mod_self_right]
        exact Nat.mod_eq_of_lt hidiv
      have hjdiv : ((i % es) * (xs.length / es) + i / es) / (xs.length / es) = i % es := by
        rw [Nat.add_comm, Nat.add_mul_div_right _ _ hnpos, Nat.div_eq_of_lt hidiv, Nat.zero_add]
      have hback : (i / es) * es + i % es = i := by
        rw [Nat.mul_comm]
        exact Nat.div_add_mod i es
      have h1 : (unshuffleBytes es (shuffleBytes es xs))[i] =
          (shuffleBytes es xs).getD ((i % es) * ((shuffleBytes es xs).length / es) + i / es) 0 := by
        simp only [unshuffleBytes, List.getElem_map, List.getElem_range]
      rw [h1, hsq]
      have h2 : (shuffleBytes es xs).getD ((i % es) * (xs.length / es) + i / es) 0 =
          xs.getD
            ((((i % es) * (xs.length / es) + i / es) % (xs.length / es)) * es +
              ((i % es) * (xs.length / es) + i / es) / (xs.length / es)) 0 := by
        rw [List.getD_eq_getElem _ _ (by rw [shuffleBytes_length]; exact hjlt)]
        simp only [shuffleBytes, List.getElem_map, List.getElem_range]
      rw [h2, hjmod, hjdiv, hback]
      exact List.getD_eq_getElem _ _ hiu

/-- The low-to-high bits of a value, `k` of them. -/
def byteBits : Nat → Nat → List Nat
  | 0, _ => []
  | k + 1, b => b % 2 :: byteBits k (b / 2)

/-- Reassemble a value from its low-to-high bit list. -/
def bitsToByte : List Nat → Nat
  | [] => 0
  | bit :: rest => bit + 2 * bitsToByte rest

/-- Expand a byte buffer into its bit buffer (eight bits per byte). -/
def bytesToBits (xs : List Nat) : List Nat :=
  xs.foldr (fun b acc => byteBits 8 b ++ acc) []

/-- Repack a bit buffer into bytes, eight bits at a time. -/
def bitsToBytes : List Nat → List Nat
  | b0 :: b1 :: b2 :: b3 :: b4 :: b5 :: b6 :: b7 :: rest =>
    bitsToByte [b0, b1, b2, b3, b4, b5, b6, b7] :: bitsToBytes rest
  | _ => []

/-- Reassembling the `k` low bits of `b` gives `b` modulo `2 ^ k`. -/
theorem bitsToByte_byteBits (k b : Nat) : bitsToByte (byteBits k b) = b % 2 ^ k := by
  induction k generalizing b with
  | zero => simp [byteBits, bitsToByte, Nat.mod_one]
  | succ k ih =>
    rw [byteBits, bitsToByte, ih]
    have e1 : b / 2 % 2 ^ k = b % 2 ^ (k + 1) / 2 := by
      rw [show (2 : Nat) ^ (k + 1) = 2 * 2 ^ k from by rw [Nat.pow_succ]; ring]
      rw [Nat.mod_mul_right_div_self]
    have e2 : b % 2 = b % 2 ^ (k + 1) % 2 := by
      rw [Nat.mod_mod_of_dvd b ⟨2 ^ k, by rw [Nat.pow_succ]; ring⟩]
    rw [e1, e2]
    generalize b % 2 ^ (k + 1) = X
    omega

/-- `byteBits` produces exactly `k` bits. -/
theorem byteBits_length (k b : Nat) : (byteBits k b).length = k := by
  induction k generalizing b with
  | zero => simp [byteBits]
  | succ k ih => simp [byteBits, ih]

/-- Every entry of `byteBits` is a bit. -/
theorem byteBits_lt_two (k b : Nat) : forall x, x ∈ byteBits k b → x < 2 := by
  induction k generalizing b with
  | zero => simp [byteBits]
  | succ k ih =>
    intro x hx
    rw [byteBits] at hx
    rcases List.mem_cons.mp hx with h | h
    · subst h
      exact Nat.mod_lt _ (by omega)
    · exact ih (b / 2) x h

/-- Bit expansion distributes over cons. -/
theorem bytesToBits_cons (b : Nat) (rest : List Nat) :
    bytesToBits (b :: rest) = byteBits 8 b ++ bytesToBits rest := rfl

/-- A byte buffer expands to eight bits per byte. -/
theorem bytesToBits_length (xs : List Nat) : (bytesToBits xs).length = 8 * xs.length := by
  induction xs with
  | nil => simp [bytesToBits]
  | cons b rest ih =>
    rw [bytesToBits_cons, List.length_append, byteBits_length, ih]
    simp only [List.length_cons]
    ring

/-- Every entry of an expanded byte buffer is a bit. -/
theorem bytesToBits_lt_two (xs : List Nat) : forall x, x ∈ bytesToBits xs → x < 2 := by
  induction xs with
  | nil => simp [bytesToBits]
  | cons b rest ih =>
    intro x hx
    rw [bytesToBits_cons] at hx
    rcases List.mem_append.mp hx with h | h
    · exact byteBits_lt_two 8 b x h
    · exact ih x h

/-- Expanding a byte buffer to bits and repacking returns the buffer,
byte for byte. -/
theorem bitsToBytes_bytesToBits (xs : List Nat) (hb : forall x, x ∈ xs → x < 256) :
    bitsToBytes (bytesToBits xs) = xs := by
  induction xs with
  | nil => rfl
  | cons b rest ih =>
    rw [bytesToBits_cons]
    have hexp : byteBits 8 b =
        [b % 2, b / 2 % 2, b / 2 / 2 % 2, b / 2 / 2 / 2 % 2, b / 2 / 2 / 2 / 2 % 2,
         b / 2 / 2 / 2 / 2 / 2 % 2, b / 2 / 2 / 2 / 2 / 2 / 2 % 2,
         b / 2 / 2 / 2 / 2 / 2 / 2 / 2 % 2] := rfl
    rw [hexp]
    show bitsToByte [b % 2, b / 2 % 2, b / 2 / 2 % 2, b / 2 / 2 / 2 % 2, b / 2 / 2 / 2 / 2 % 2,
         b / 2 / 2 / 2 / 2 / 2 % 2, b / 2 / 2 / 2 / 2 / 2 / 2 % 2,
         b / 2 / 2 / 2 / 2 / 2 / 2 / 2 % 2] :: bitsToBytes (bytesToBits rest) = b :: rest
    rw [ih (fun x hx => hb x (List.mem_cons_of_mem b hx))]
    have hbb : bitsToByte (byteBits 8 b) = b := by
      rw [bitsToByte_byteBits]
      exact Nat.mod_eq_of_lt (by have := hb b (List.mem_cons_self b rest); omega)
    rw [hexp] at hbb
    rw [hbb]

/-- Splitting a reassembled byte back into its eight bits returns the bits. -/
theorem byteBits_bitsToByte_eight (b0 b1 b2 b3 b4 b5 b6 b7 : Nat)
    (h0 : b0 < 2) (h1 : b1 < 2) (h2 : b2 < 2) (h3 : b3 < 2)
    (h4 : b4 < 2) (h5 : b5 < 2) (h6 : b6 < 2) (h7 : b7 < 2) :
    byteBits 8 (bitsToByte [b0, b1, b2, b3, b4, b5, b6, b7]) =
      [b0, b1, b2, b3, b4, b5, b6, b7] := by
  simp only [byteBits, bitsToByte]
  simp only [List.cons.injEq, and_true]
  refine ⟨?_, ?_, ?_, ?_, ?_, ?_, ?_, ?_⟩ <;> omega

/-- Repacking a bit buffer into bytes and re-expanding returns the buffer,
bit for bit. -/
theorem bytesToBits_bitsToBytes (l : List Nat) (n : Nat) (hn : l.length = 8 * n)
    (hb : forall x, x ∈ l → x < 2) : bytesToBits (bitsToBytes l) = l := by
  induction n generalizing l with
  | zero =>
    have : l = [] := List.length_eq_zero.mp (by omega)
    subst this
    rfl
  | succ n ih =>
    rcases l with _ | ⟨b0, l⟩
    · simp only [List.length_nil, List.length_cons] at hn; omega
    rcases l with _ | ⟨b1, l⟩
    · simp only [List.length_nil, List.length_cons] at hn; omega
    rcases l with _ | ⟨b2, l⟩
    · simp only [List.length_nil, List.length_cons] at hn; omega
    rcases l with _ | ⟨b3, l⟩
    · simp only [List.length_nil, List.length_cons] at hn; omega
    rcases l with _ | ⟨b4, l⟩
    · simp only [List.length_nil, List.length_cons] at hn; omega
    rcases l with _ | ⟨b5, l⟩
    · simp only [List.length_nil, List.length_cons] at hn; omega
    rcases l with _ | ⟨b6, l⟩
    · simp only [List.length_nil, List.length_cons] at hn; omega
    rcases l with _ | ⟨b7, l⟩
    · simp only [List.length_nil, List.length_cons] at hn; omega
    have hlen : l.length = 8 * n := by
      simp only [List.length_cons] at hn
      omega
    rw [show bitsToBytes (b0 :: b1 :: b2 :: b3 :: b4 :: b5 :: b6 :: b7 :: l) =
        bitsToByte [b0, b1, b2, b3, b4, b5, b6, b7] :: bitsToBytes l from rfl]
    rw [bytesToBits_cons]
    rw [ih l hlen (fun x hx => hb x (by simp [hx]))]
    rw [byteBits_bitsToByte_eight b0 b1 b2 b3 b4 b5 b6 b7
      (hb b0 (by simp)) (hb b1 (by simp)) (hb b2 (by simp)) (hb b3 (by simp))
      (hb b4 (by simp)) (hb b5 (by simp)) (hb b6 (by simp)) (hb b7 (by simp))]
    rfl

/-- Out-of-range defaults aside, looking up in a buffer of bits gives a bit. -/
theorem getD_lt_two (xs : List Nat) (h : forall x, x ∈ xs → x < 2) (j : Nat) :
    xs.getD j 0 < 2 := by
  rcases Nat.lt_or_ge j xs.length with hj | hj
  · rw [List.getD_eq_getElem _ _ hj]
    exact h _ (List.getElem_mem hj)
  · rw [List.getD_eq_default _ _ hj]
    omega

/-- Shuffling a buffer of bits yields a buffer of bits. -/
theorem shuffleBytes_lt_two (es : Nat) (xs : List Nat) (h : forall x, x ∈ xs → x < 2) :
    forall x, x ∈ shuffleBytes es xs → x < 2 := by
  intro x hx
  unfold shuffleBytes at hx
  rcases List.mem_map.mp hx with ⟨k, hk, hfk⟩
  rw [← hfk]
  exact getD_lt_two xs h _

/-- Modelled from the spec: the blosc bit-shuffle stage — expand the buffer
to bits, shuffle with the element size in bits, and repack. -/
def bitShuffle (es : Nat) (xs : List Nat) : List Nat :=
  bitsToBytes (shuffleBytes (8 * es) (bytesToBits xs))

/-- Modelled from the spec: the inverse bit-shuffle. -/
def bitUnshuffle (es : Nat) (xs : List Nat) : List Nat :=
  bitsToBytes (unshuffleBytes (8 * es) (bytesToBits xs))

/-- The bit shuffle is inverted exactly by the bit unshuffle on byte buffers
holding a whole number of elements. -/
theorem bitShuffle_roundtrip (es : Nat) (xs : List Nat) (hes : 0 < es)
    (hdvd : es ∣ xs.length) (hb : forall x, x ∈ xs → x < 256) :
    bitUnshuffle es (bitShuffle es xs) = xs := by
  unfold bitShuffle bitUnshuffle
  have hdvdbits : (8 * es) ∣ (bytesToBits xs).length := by
    rw [bytesToBits_length]
    exact Nat.mul_dvd_mul_left 8 hdvd
  have hSlen : (shuffleBytes (8 * es) (bytesToBits xs)).length = (bytesToBits xs).length := by
    rw [shuffleBytes_length]
    exact Nat.mul_div_cancel' hdvdbits
  have hdvd8 : (8 : Nat) ∣ (shuffleBytes (8 * es) (bytesToBits xs)).length := by
    rw [hSlen, bytesToBits_length]
    exact Dvd.intro xs.length rfl
  obtain ⟨q, hq⟩ := hdvd8
  rw [bytesToBits_bitsToBytes (shuffleBytes (8 * es) (bytesToBits xs)) q hq
    (shuffleBytes_lt_two (8 * es) (bytesToBits xs) (bytesToBits_lt_two xs))]
  rw [unshuffle_shuffle (8 * es) (bytesToBits xs) (by omega) hdvdbits]
  exact bitsToBytes_bytesToBits xs hb

/-- The block-compression codec of the configuration surface:
`none`, `lz4`, `zstd`. -/
inductive CodecKind
  | none
  | lz4
  | zstd
deriving DecidableEq, Repr

/-- A codec configuration: algorithm, numeric level, shuffle mode
(0 none, 1 byte shuffle, 2 bit shuffle). -/
structure CodecConfig where
  codec : CodecKind
  level : Nat
  shuffle : Nat
deriving DecidableEq, Repr

/-- The numeric tag identifying each algorithm in the compressed header. -/
def algTag : CodecKind → Nat
  | CodecKind.none => 0
  | CodecKind.lz4 => 1
  | CodecKind.zstd => 2

/-- The shuffle stage applied before block compression, selected by mode. -/
def applyShuffleStage (mode es : Nat) (xs : List Nat) : List Nat :=
  if mode = 1 then shuffleBytes es xs
  else if mode = 2 then bitShuffle es xs
  else xs

/-- The inverse shuffle stage applied after block decompression. -/
def removeShuffleStage (mode es : Nat) (xs : List Nat) : List Nat :=
  if mode = 1 then unshuffleBytes es xs
  else if mode = 2 then bitUnshuffle es xs
  else xs

/-- Modelled from the spec: §4.3 compression of a chunk buffer.  `none`
passes the bytes through.  The external lz4/zstd block compressors are not
in the repository and the spec fixes only their lossless round-trip
contract, so they are modelled as that contract demands — a header carrying
algorithm, level and shuffle mode, followed by the (concretely modelled)
shuffle stage's output. -/
def compressChunk (cfg : CodecConfig) (es : Nat) (xs : List Nat) : List Nat :=
  match cfg.codec with
  | CodecKind.none => xs
  | _ => algTag cfg.codec :: cfg.level :: cfg.shuffle :: applyShuffleStage cfg.shuffle es xs

/-- Modelled from the spec: §4.3 decompression of a compressed block —
strip the header and invert the shuffle stage. -/
def decompressChunk (cfg : CodecConfig) (es : Nat) (ys : List Nat) : List Nat :=
  match cfg.codec with
  | CodecKind.none => ys
  | _ => removeShuffleStage cfg.shuffle es (ys.drop 3)

/-- Every shuffle mode is inverted exactly on legal chunk buffers. -/
theorem shuffle_stage_roundtrip (mode es : Nat) (xs : List Nat) (hes : 0 < es)
    (hdvd : es ∣ xs.length) (hb : forall x, x ∈ xs → x < 256) :
    removeShuffleStage mode es (applyShuffleStage mode es xs) = xs := by
  unfold applyShuffleStage removeShuffleStage
  by_cases h1 : mode = 1
  · simp [h1, unshuffle_shuffle es xs hes hdvd]
  · by_cases h2 : mode = 2
    · simp [h1, h2, bitShuffle_roundtrip es xs hes hdvd hb]
    · simp [h1, h2]

/-- **C3**: for every codec in {none, lz4, zstd}, every shuffle mode and
every legal chunk buffer (byte values, a whole number of elements),
decompressing the compressed bytes returns the buffer bit for bit. -/
theorem codec_roundtrip (cfg : CodecConfig) (es : Nat) (xs : List Nat)
    (hes : 0 < es) (hdvd : es ∣ xs.length) (hb : forall x, x ∈ xs → x < 256) :
    decompressChunk cfg es (compressChunk cfg es xs) = xs := by
  cases hc : cfg.codec with
  | none => simp [compressChunk, decompressChunk, hc]
  | lz4 =>
    simp [compressChunk, decompressChunk, hc]
    exact shuffle_stage_roundtrip cfg.shuffle es xs hes hdvd hb
  | zstd =>
    simp [compressChunk, decompressChunk, hc]
    exact shuffle_stage_roundtrip cfg.shuffle es xs hes hdvd hb

/-- Witness for `codec_roundtrip`: lz4 at level 1 with byte shuffle on a
two-element uint16-style buffer. -/
theorem codec_roundtrip_witness :
    ((0 : Nat) < 2 ∧ (2 : Nat) ∣ ([7, 200, 13, 255] : List Nat).length ∧
     (forall x, x ∈ ([7, 200, 13, 255] : List Nat) → x < 256)) ∧
    decompressChunk ⟨CodecKind.lz4, 1, 1⟩ 2
      (compressChunk ⟨CodecKind.lz4, 1, 1⟩ 2 [7, 200, 13, 255]) = [7, 200, 13, 255] :=
  ⟨⟨by decide, by decide, by decide⟩,
    codec_roundtrip ⟨CodecKind.lz4, 1, 1⟩ 2 [7, 200, 13, 255]
      (by decide) (by decide) (by decide)⟩

end AcquireZarr
